import Mathlib

/-!
Verification of the resume analysis routine of `resume_filter.py` (with the
`gradioApp.py` variant where its behaviour differs).  Strings are embedded as
`List Char`; Python floats are embedded as exact rationals `ℚ`; the current
clock consulted by `datetime.now()` is an explicit `(month, year)` parameter;
code that can raise an uncaught exception is embedded with `Option`.
-/

namespace ResumeApp

/-- Resume texts, keywords and file names are lists of characters. -/
abbrev Str := List Char

/-- Python regex `\d` on ASCII input. -/
def isDigitC (c : Char) : Bool := '0' ≤ c && c ≤ '9'

/-- ASCII letter, i.e. what `[a-z]` matches under `re.IGNORECASE`. -/
def isAsciiAlpha (c : Char) : Bool := ('a' ≤ c && c ≤ 'z') || ('A' ≤ c && c ≤ 'Z')

/-- Python regex `\s` (ASCII whitespace: space, tab, newline, CR, VT, FF). -/
def isPySpace (c : Char) : Bool :=
  c = ' ' || c = '\t' || c = '\n' || c = '\r' || c = '\x0b' || c = '\x0c'

/-- The dash alternatives `[-–—]` of the date patterns (hyphen, en dash, em dash). -/
def isDashC (c : Char) : Bool := c = '-' || c = '–' || c = '—'

/-- Python regex `\w` on ASCII input: letters, digits and underscore. -/
def isWordC (c : Char) : Bool := isDigitC c || isAsciiAlpha c || c = '_'

/-- ASCII lower-casing of one character, as `str.lower()` acts on ASCII. -/
def asciiLower (c : Char) : Char :=
  if 'A' ≤ c && c ≤ 'Z' then Char.ofNat (c.toNat + 32) else c

/-- `str.lower()` on ASCII text. -/
def lowerStr (s : Str) : Str := s.map asciiLower

/-- Drop leading whitespace (left part of `str.strip()`). -/
def stripL (s : Str) : Str := s.dropWhile isPySpace

/-- Drop trailing whitespace (right part of `str.strip()`). -/
def stripR (s : Str) : Str := (s.reverse.dropWhile isPySpace).reverse

/-- Python `str.strip()`. -/
def strip (s : Str) : Str := stripR (stripL s)

/-- Split a string at every dash character, keeping the pieces
(the dash-skeleton of `re.split(r'\s*[-–—]\s*', s)`). -/
def splitOnDash : Str → List Str
  | [] => [[]]
  | c :: cs =>
    if isDashC c then [] :: splitOnDash cs
    else
      match splitOnDash cs with
      | p :: ps => (c :: p) :: ps
      | [] => [[c]]

/-- Strip the dash-adjacent whitespace from the second and later pieces:
each separator match of `\s*[-–—]\s*` absorbs the spaces around its dash. -/
def adjustTail : List Str → List Str
  | [] => []
  | [q] => [stripL q]
  | q :: qs => stripL (stripR q) :: adjustTail qs

/-- Python `re.split(r'\s*[-–—]\s*', s)`: split on each dash, the separator
absorbing adjacent whitespace (outer whitespace of the first and last piece
is kept). -/
def reSplitDash (s : Str) : List Str :=
  match splitOnDash s with
  | [] => []
  | [p] => [p]
  | p :: ps => stripR p :: adjustTail ps

/-- Month number of a lower-cased three-letter abbreviation, as accepted by
`%b` in `strptime` (and by the month alternation of the date regex). -/
def monthNum3 (s : Str) : Option Nat :=
  if s = "jan".data then some 1
  else if s = "feb".data then some 2
  else if s = "mar".data then some 3
  else if s = "apr".data then some 4
  else if s = "may".data then some 5
  else if s = "jun".data then some 6
  else if s = "jul".data then some 7
  else if s = "aug".data then some 8
  else if s = "sep".data then some 9
  else if s = "oct".data then some 10
  else if s = "nov".data then some 11
  else if s = "dec".data then some 12
  else none

/-- Value of a decimal digit string. -/
def digitsVal (s : Str) : Nat := s.foldl (fun a c => a * 10 + (c.toNat - 48)) 0

/-- `datetime.strptime(s[:3] + " " + s[-4:], "%b %Y")`, returning
`(month, year)` on success and `none` where `strptime` raises `ValueError`
(unrecognised month abbreviation, non-digit year characters, or year 0). -/
def parseMonthYear (s : Str) : Option (Nat × Nat) :=
  let first3 := s.take 3
  let last4 := s.drop (s.length - 4)
  match monthNum3 (lowerStr first3) with
  | none => none
  | some m =>
    if last4 ≠ [] && last4.all isDigitC && 1 ≤ digitsVal last4 then
      some (m, digitsVal last4)
    else none

/-- Cumulative days before month `m` in a non-leap year (CPython's
`_days_before_month` table). -/
def cumDays (m : Nat) : Nat :=
  match m with
  | 1 => 0 | 2 => 31 | 3 => 59 | 4 => 90 | 5 => 120 | 6 => 151
  | 7 => 181 | 8 => 212 | 9 => 243 | 10 => 273 | 11 => 304 | 12 => 334
  | _ => 0

/-- Gregorian leap year test, as in CPython's `datetime`. -/
def isLeap (y : Nat) : Bool := y % 4 = 0 && (y % 100 ≠ 0 || y % 400 = 0)

/-- `datetime(year, month, 1).toordinal()` (proleptic Gregorian ordinal of the
first of the month), for `(month, year)` with `year ≥ 1`. -/
def ordinalMY (my : Nat × Nat) : Nat :=
  let m := my.1
  let y := my.2
  (y - 1) * 365 + (y - 1) / 4 - (y - 1) / 100 + (y - 1) / 400 + cumDays m +
    (if 2 < m && isLeap y then 1 else 0) + 1

/-- Capitalised month abbreviation as produced by `strftime("%b")`. -/
def monthAbbrevCap (m : Nat) : Str :=
  (["Jan", "Feb", "Mar", "Apr", "May", "Jun",
    "Jul", "Aug", "Sep", "Oct", "Nov", "Dec"].map String.data).getD (m - 1) ("Jan".data)

/-- `datetime.now().strftime("%b %Y")` for a clock reading `(month, year)`. -/
def nowFormatted (now : Nat × Nat) : Str :=
  monthAbbrevCap now.1 ++ [' '] ++ Nat.toDigits 10 now.2

/-- Anchored match of one `(?:jan|…|dec)[a-z]*\s*\d{4}` occurrence (with
`re.IGNORECASE`), returning the matched characters and the rest. -/
def monthYearTok (cs : Str) : Option (Str × Str) :=
  match monthNum3 (lowerStr (cs.take 3)) with
  | none => none
  | some _ =>
    let r3 := cs.drop 3
    let letters := r3.takeWhile isAsciiAlpha
    let r4 := r3.dropWhile isAsciiAlpha
    let sps := r4.takeWhile isPySpace
    let r5 := r4.dropWhile isPySpace
    let yr := r5.take 4
    if yr.length = 4 && yr.all isDigitC then
      some (cs.take 3 ++ letters ++ sps ++ yr, r5.drop 4)
    else none

/-- Anchored match of the first alternative of the date pattern:
`month-year \s* [-–—] \s* month-year`. -/
def dateRangeTok (cs : Str) : Option (Str × Str) :=
  match monthYearTok cs with
  | none => none
  | some (m1, r1) =>
    let sps1 := r1.takeWhile isPySpace
    let r2 := r1.dropWhile isPySpace
    match r2 with
    | [] => none
    | d :: r3 =>
      if isDashC d then
        let sps2 := r3.takeWhile isPySpace
        let r4 := r3.dropWhile isPySpace
        match monthYearTok r4 with
        | none => none
        | some (m2, r5) => some (m1 ++ sps1 ++ (d :: sps2) ++ m2, r5)
      else none

/-- Word-character test of an optional character (`\b` support). -/
def wordOpt : Option Char → Bool
  | none => false
  | some c => isWordC c

/-- Anchored match of the second alternative `\bpresent\b` (case-insensitive),
given the character preceding the current position. -/
def presentTok (prev : Option Char) (cs : Str) : Option (Str × Str) :=
  let w := cs.take 7
  let rest := cs.drop 7
  if lowerStr w = "present".data && !wordOpt prev && !wordOpt rest.head? then
    some (w, rest)
  else none

/-- One anchored attempt of the whole date pattern: the range alternative is
tried first, the bare word `present` second. -/
def dateToken (prev : Option Char) (cs : Str) : Option (Str × Str) :=
  match dateRangeTok cs with
  | some r => some r
  | none => presentTok prev cs

/-- Left-to-right non-overlapping scan of `re.findall(date_pattern, text, re.IGNORECASE)`,
keeping the matched substrings. -/
def dateScanAux : Nat → Option Char → Str → List Str
  | 0, _, _ => []
  | _, _, [] => []
  | fuel+1, prev, c :: cs =>
    match dateToken prev (c :: cs) with
    | some (m, rest) => m :: dateScanAux fuel m.getLast? rest
    | none => dateScanAux fuel (some c) cs

/-- All matches of the date pattern in the text (`re.findall`). -/
def dateFindAll (text : Str) : List Str := dateScanAux text.length none text

/-- Body of the date-range loop for one matched substring: split on the dash
separators, require exactly two parts, strip them, substitute the formatted
clock for a literal `present` end, parse both as month-year, and keep the
duration `(end - start).days / 365.25` when it is positive. -/
def rangeContribution (now : Nat × Nat) (m : Str) : Option ℚ :=
  match reSplitDash m with
  | [d0, d1] =>
    let startD := strip d0
    let endD0 := strip d1
    let endD := if lowerStr endD0 = "present".data then nowFormatted now else endD0
    match parseMonthYear startD, parseMonthYear endD with
    | some s, some e =>
      let days : Int := (ordinalMY e : Int) - (ordinalMY s : Int)
      let dur : ℚ := (days : ℚ) / ((36525 : ℚ) / 100)
      if 0 < dur then some dur else none
    | _, _ => none
  | _ => none

/-- The running `(total_experience, valid_ranges)` accumulation of the
date-range loop. -/
def fallbackState (now : Nat × Nat) (rs : List Str) : ℚ × Nat :=
  rs.foldl (fun acc m =>
    match rangeContribution now m with
    | some d => (acc.1 + d, acc.2 + 1)
    | none => acc) (0, 0)

/-- The date-range fallback of `extract_experience`: the accumulated total
when at least one range was valid, `none` otherwise. -/
def dateFallback (now : Nat × Nat) (text : Str) : Option ℚ :=
  let st := fallbackState now (dateFindAll text)
  if 0 < st.2 then some st.1 else none

/-- Greedy digit run. -/
def takeDigits (cs : Str) : Str × Str := (cs.takeWhile isDigitC, cs.dropWhile isDigitC)

/-- Anchored literal token. -/
def litTok (s : Str) (cs : Str) : Option Str :=
  if cs.take s.length = s then some (cs.drop s.length) else none

/-- Anchored match of the capture group `(\d+\.?\d*)` (greedy), returning the
captured characters and the rest. -/
def numGroup (cs : Str) : Option (Str × Str) :=
  let ds := cs.takeWhile isDigitC
  let r1 := cs.dropWhile isDigitC
  if ds = [] then none
  else
    match r1 with
    | '.' :: r2 => some (ds ++ '.' :: r2.takeWhile isDigitC, r2.dropWhile isDigitC)
    | _ => some (ds, r1)

/-- Rests after matching `(years?|yrs?)`, in backtracking priority order
(greedy optional `s` first). -/
def yearsAlts (cs : Str) : List Str :=
  (match litTok ("year".data) cs with
   | some r =>
     match r with
     | 's' :: r2 => [r2, r]
     | _ => [r]
   | none => []) ++
  (match litTok ("yr".data) cs with
   | some r =>
     match r with
     | 's' :: r2 => [r2, r]
     | _ => [r]
   | none => [])

/-- Anchored match of `(experience|exp)`, longer alternative first. -/
def expAlt (cs : Str) : Option Str :=
  match litTok ("experience".data) cs with
  | some r => some r
  | none => litTok ("exp".data) cs

/-- Anchored match of pattern 1, `(\d+\.?\d*)\s*(years?|yrs?)\s*(experience|exp)`:
capture group 1 and the rest after the whole match. -/
def p1At (cs : Str) : Option (Str × Str) :=
  match numGroup cs with
  | none => none
  | some (g, r1) =>
    let r2 := r1.dropWhile isPySpace
    (yearsAlts r2).findSome? (fun r3 =>
      let r4 := r3.dropWhile isPySpace
      match expAlt r4 with
      | some r5 => some (g, r5)
      | none => none)

/-- Anchored match of pattern 2, `experience\s*:\s*(\d+\.?\d*)\s*(years?|yrs?)`. -/
def p2At (cs : Str) : Option (Str × Str) :=
  match litTok ("experience".data) cs with
  | none => none
  | some r1 =>
    let r2 := r1.dropWhile isPySpace
    match r2 with
    | ':' :: r3 =>
      let r4 := r3.dropWhile isPySpace
      match numGroup r4 with
      | none => none
      | some (g, r5) =>
        let r6 := r5.dropWhile isPySpace
        match (yearsAlts r6).head? with
        | some r7 => some (g, r7)
        | none => none
    | _ => none

/-- End offset, within the text following `in`, of the greedy tail
`\s*.*(experience|exp)`: the flag records whether the scan is still inside the
leading whitespace block that `\s*` may absorb (a `.` cannot cross a newline
beyond it); the rightmost viable alternation start wins, `experience` before
`exp` there. -/
def scanExpLast : Bool → Nat → Option Nat → Str → Option Nat
  | _, _, best, [] => best
  | inWs, i, best, c :: rest =>
    let best' :=
      if (c :: rest).take 10 = "experience".data then some (i + 10)
      else if (c :: rest).take 3 = "exp".data then some (i + 3)
      else best
    if inWs && isPySpace c then scanExpLast true (i + 1) best' rest
    else if c = '\n' then best'
    else scanExpLast false (i + 1) best' rest

/-- Anchored match of pattern 3, `(\d+)\+?\s*(years?|yrs?)\s*in\s*.*(experience|exp)`. -/
def p3At (cs : Str) : Option (Str × Str) :=
  let ds := cs.takeWhile isDigitC
  let r1 := cs.dropWhile isDigitC
  if ds = [] then none
  else
    let r2 := match r1 with | '+' :: r => r | _ => r1
    let r3 := r2.dropWhile isPySpace
    (yearsAlts r3).findSome? (fun r4 =>
      let r5 := r4.dropWhile isPySpace
      match litTok ("in".data) r5 with
      | none => none
      | some r6 =>
        match scanExpLast true 0 none r6 with
        | some k => some (ds, r6.drop k)
        | none => none)

/-- Anchored match of pattern 4, `(\d+\.?\d*)\s*(years?|yrs?)\s*professional`. -/
def p4At (cs : Str) : Option (Str × Str) :=
  match numGroup cs with
  | none => none
  | some (g, r1) =>
    let r2 := r1.dropWhile isPySpace
    (yearsAlts r2).findSome? (fun r3 =>
      let r4 := r3.dropWhile isPySpace
      match litTok ("professional".data) r4 with
      | some r5 => some (g, r5)
      | none => none)

/-- Anchored match of pattern 5, `(\d+)\s*(years?|yrs?)\s*relevant`. -/
def p5At (cs : Str) : Option (Str × Str) :=
  let ds := cs.takeWhile isDigitC
  let r1 := cs.dropWhile isDigitC
  if ds = [] then none
  else
    let r2 := r1.dropWhile isPySpace
    (yearsAlts r2).findSome? (fun r3 =>
      let r4 := r3.dropWhile isPySpace
      match litTok ("relevant".data) r4 with
      | some r5 => some (ds, r5)
      | none => none)

/-- The five explicit-statement patterns, in the source's list order. -/
def patternMatchers : List (Str → Option (Str × Str)) := [p1At, p2At, p3At, p4At, p5At]

/-- `re.finditer` for one pattern: leftmost matches, scanning resumes after
each match; the captured group 1 of each match is kept. -/
def patScanAux (pat : Str → Option (Str × Str)) : Nat → Str → List Str
  | 0, _ => []
  | _, [] => []
  | fuel+1, c :: rest =>
    match pat (c :: rest) with
    | some (g, r) => g :: patScanAux pat fuel r
    | none => patScanAux pat fuel rest

/-- Group-1 captures of all matches of one pattern in the text. -/
def patternMatches (pat : Str → Option (Str × Str)) (text : Str) : List Str :=
  patScanAux pat text.length text

/-- Python `float()` restricted to the `\d+\.?\d*` shapes the capture groups
can take. -/
def tryParseNum (g : Str) : Option ℚ :=
  let ip := g.takeWhile isDigitC
  let r1 := g.dropWhile isDigitC
  if ip = [] then none
  else
    match r1 with
    | [] => some ((digitsVal ip : ℚ))
    | '.' :: fr =>
      if fr.all isDigitC then
        some ((digitsVal ip : ℚ) + (digitsVal fr : ℚ) / ((10 : ℚ) ^ fr.length))
      else none
    | _ => none

/-- The explicit-statement phase of `extract_experience`: the first pattern in
list order with a parseable match wins, taking that pattern's first parseable
match. -/
def explicitValue (text : Str) : Option ℚ :=
  patternMatchers.findSome? (fun pat => (patternMatches pat text).findSome? tryParseNum)

/-- `ResumeFilter.extract_experience`: explicit statements first, then the
date-range fallback; `none` is Python's `None`. -/
def extractExperience (now : Nat × Nat) (text : Str) : Option ℚ :=
  match explicitValue text with
  | some v => some v
  | none => dateFallback now text

/-- Word-character test of the character at index `j` (out of range counts as
a non-word position). -/
def wordAt (text : Str) (j : Nat) : Bool :=
  match text[j]? with
  | some c => isWordC c
  | none => false

/-- The zero-width assertion `\b` at index `j`: the word-ness of the previous
character differs from the word-ness of the current one. -/
def boundaryAt (text : Str) (j : Nat) : Bool :=
  (match j with
   | 0 => false
   | k + 1 => wordAt text k) != wordAt text j

/-- Anchored match of `\b + re.escape(kw) + \b` at index `i`: the keyword
occurs literally at `i` with word boundaries at both ends. -/
def kwMatchAt (kw text : Str) (i : Nat) : Bool :=
  (text.drop i).take kw.length == kw && boundaryAt text i && boundaryAt text (i + kw.length)

/-- `re.finditer` scan for the keyword pattern: leftmost non-overlapping
matches as `(start, end)` index pairs, resuming after each match. -/
def kwScanAux (kw text : Str) : Nat → Nat → List (Nat × Nat)
  | 0, _ => []
  | fuel + 1, i =>
    if text.length ≤ i then []
    else if kwMatchAt kw text i then
      (i, i + kw.length) :: kwScanAux kw text fuel (i + max kw.length 1)
    else kwScanAux kw text fuel (i + 1)

/-- All whole-word matches of the keyword in the text. -/
def kwFindIter (kw text : Str) : List (Nat × Nat) := kwScanAux kw text text.length 0

/-- Occurrence count of a keyword (`len(re.findall(...))`, equally the number
of `finditer` matches). -/
def countKw (kw text : Str) : Nat := (kwFindIter kw text).length

/-- Context snippet of one match: 50 characters each side clamped to the text,
newlines replaced by spaces, then stripped. -/
def contextOf (text : Str) (se : Nat × Nat) : Str :=
  let a := se.1 - 50
  let b := min text.length (se.2 + 50)
  strip (((text.take b).drop a).map (fun c => if c = '\n' then ' ' else c))

/-- Write `d[k] = v` in an insertion-ordered dictionary. -/
def dictUpd (d : List (Str × Nat)) (k : Str) (v : Nat) : List (Str × Nat) :=
  if d.any (fun p => p.1 == k) then d.map (fun p => if p.1 == k then (k, v) else p)
  else d ++ [(k, v)]

/-- Read `d[k]` from a `defaultdict(int)` (missing keys give 0). -/
def dictGet (d : List (Str × Nat)) (k : Str) : Nat :=
  match d.find? (fun p => p.1 == k) with
  | some p => p.2
  | none => 0

/-- Append the context snippets found for `kw` to `found_sections[kw]`; a
`defaultdict(list)` only grows a key when at least one snippet is appended. -/
def sectUpd (d : List (Str × List Str)) (k : Str) (vs : List Str) : List (Str × List Str) :=
  if vs.isEmpty then d
  else if d.any (fun p => p.1 == k) then d.map (fun p => if p.1 == k then (p.1, p.2 ++ vs) else p)
  else d ++ [(k, vs)]

/-- The requirement parameters held by a `ResumeFilter` instance. -/
structure Config where
  jobDescription : Str
  mandatory : List Str
  optional : List Str
  minExperience : ℚ
deriving DecidableEq

/-- `ResumeFilter.__init__`: both keyword lists are lower-cased on construction. -/
def mkConfig (jobDescription : Str) (mandatoryKeywords optionalKeywords : List Str)
    (minExperience : ℚ) : Config :=
  { jobDescription := jobDescription
    mandatory := mandatoryKeywords.map lowerStr
    optional := optionalKeywords.map lowerStr
    minExperience := minExperience }

/-- The record returned by `analyze_resume`. -/
structure Analysis where
  missing_mandatory : List Str
  keyword_counts : List (Str × Nat)
  found_sections : List (Str × List Str)
  experience : Option ℚ
  score : ℚ
deriving DecidableEq

/-- `ResumeFilter.analyze_resume`.  The only way the Python code can raise is
the division `experience / self.min_experience` with a zero minimum, embedded
as the `none` result. -/
def analyzeResume (cfg : Config) (now : Nat × Nat) (text : Str) : Option Analysis :=
  let st := cfg.mandatory.foldl
    (fun st kw =>
      let ms := kwFindIter kw text
      let contexts := ms.map (contextOf text)
      let missing := if ms.length = 0 then st.1 ++ [kw] else st.1
      (missing, dictUpd st.2.1 kw ms.length, sectUpd st.2.2 kw contexts))
    (([], [], []) : List Str × List (Str × Nat) × List (Str × List Str))
  let counts := cfg.optional.foldl (fun d kw => dictUpd d kw (countKw kw text)) st.2.1
  let experience := extractExperience now text
  let mandatoryScore : Nat := (cfg.mandatory.map (fun kw => dictGet counts kw * 3)).sum
  let optionalScore : Nat := (cfg.optional.map (fun kw => dictGet counts kw)).sum
  let expBonus : Option ℚ :=
    match experience with
    | some e =>
      if cfg.minExperience ≤ e then
        if cfg.minExperience = 0 then none
        else
          some ((if e / cfg.minExperience ≤ (12 : ℚ) / 10 then e / cfg.minExperience
              else (12 : ℚ) / 10) *
            ((mandatoryScore : ℚ) + (optionalScore : ℚ)) * ((2 : ℚ) / 10))
      else some 0
    | none => some 0
  match expBonus with
  | none => none
  | some b =>
    some { missing_mandatory := st.1
           keyword_counts := counts
           found_sections := st.2.2
           experience := experience
           score := (mandatoryScore : ℚ) + (optionalScore : ℚ) + b }

/-- Outcome of reading one resume file: the raw document text, or an
exception raised during extraction carrying its message. -/
inductive Extraction where
  | ok (raw : Str)
  | err (msg : Str)
deriving DecidableEq

/-- `extract_text` of `resume_filter.py`: successful extraction is lower-cased;
an exception is caught, logged, and the still-empty `text` is returned. -/
def extractText : Extraction → Str
  | .ok raw => lowerStr raw
  | .err _ => []

/-- `extract_text` of `gradioApp.py`: identical on success, but an exception
returns the interpolated error message itself (not lower-cased). -/
def extractTextG (filepath : Str) : Extraction → Str
  | .ok raw => lowerStr raw
  | .err msg => ("Error processing ").data ++ filepath ++ (": ").data ++ msg

/-- Python `str.endswith`. -/
def endsWithStr (s suffixStr : Str) : Bool :=
  s.drop (s.length - suffixStr.length) == suffixStr

/-- `filename.lower().endswith(('.pdf', '.docx', '.doc'))`. -/
def supportedExt (filename : Str) : Bool :=
  endsWithStr (lowerStr filename) (".pdf".data) ||
  endsWithStr (lowerStr filename) (".docx".data) ||
  endsWithStr (lowerStr filename) (".doc".data)

/-- One input resume: its file name and the outcome of reading it. -/
structure ResumeFile where
  filename : Str
  content : Extraction
deriving DecidableEq

/-- One entry of the ranked results list. -/
structure Ranked where
  filename : Str
  score : ℚ
  experience : Option ℚ
  experience_met : Bool
  missing_mandatory : List Str
  keyword_counts : List (Str × Nat)
  found_sections : List (Str × List Str)
deriving DecidableEq

/-- The result record appended for a resume with no missing mandatory keyword. -/
def mkRanked (filename : Str) (cfg : Config) (a : Analysis) : Ranked :=
  { filename := filename
    score := a.score
    experience := a.experience
    experience_met :=
      match a.experience with
      | some e => decide (cfg.minExperience ≤ e)
      | none => false
    missing_mandatory := a.missing_mandatory
    keyword_counts := a.keyword_counts
    found_sections := a.found_sections }

/-- The per-file loop of `process_resumes` (`resume_filter.py`): filter by
extension, skip whitespace-only texts, analyze, and keep resumes with no
missing mandatory keyword; an exception from `analyze_resume` aborts the
batch. -/
def buildPool (cfg : Config) (now : Nat × Nat) : List ResumeFile → Option (List Ranked)
  | [] => some []
  | f :: fs =>
    if supportedExt f.filename then
      let text := extractText f.content
      if strip text = [] then buildPool cfg now fs
      else
        match analyzeResume cfg now text with
        | none => none
        | some a =>
          match buildPool cfg now fs with
          | none => none
          | some rest =>
            if a.missing_mandatory = [] then some (mkRanked f.filename cfg a :: rest)
            else some rest
    else buildPool cfg now fs

/-- The sort key comparison of `results.sort(key=lambda x: (-x['score'],
-x['experience_met']))`: ascending lexicographic order of the negated key,
i.e. score descending then experience-met flag descending. -/
def rankLE (r s : Ranked) : Bool :=
  decide (s.score < r.score) ||
    (r.score == s.score &&
      decide ((if s.experience_met then 1 else 0) ≤ ((if r.experience_met then 1 else 0) : Nat)))

/-- `ResumeFilter.process_resumes` of `resume_filter.py`: build the candidate
pool and sort it stably by the ranking key (Python's `list.sort` is a stable
sort, embedded as the stable `List.mergeSort`). -/
def processResumes (cfg : Config) (now : Nat × Nat) (files : List ResumeFile) :
    Option (List Ranked) :=
  match buildPool cfg now files with
  | none => none
  | some pool => some (pool.mergeSort rankLE)

/-- The per-file loop of `process_resumes` (`gradioApp.py`): the text comes
from the gradio `extract_text`, and both skip guards (`not text.strip()` and
the always-false `not isinstance(text, str)`) reduce to the whitespace test. -/
def buildPoolG (cfg : Config) (now : Nat × Nat) : List ResumeFile → Option (List Ranked)
  | [] => some []
  | f :: fs =>
    if supportedExt f.filename then
      let text := extractTextG f.filename f.content
      if strip text = [] then buildPoolG cfg now fs
      else
        match analyzeResume cfg now text with
        | none => none
        | some a =>
          match buildPoolG cfg now fs with
          | none => none
          | some rest =>
            if a.missing_mandatory = [] then some (mkRanked f.filename cfg a :: rest)
            else some rest
    else buildPoolG cfg now fs

/-- `ResumeFilter.process_resumes` of `gradioApp.py`. -/
def processResumesG (cfg : Config) (now : Nat × Nat) (files : List ResumeFile) :
    Option (List Ranked) :=
  match buildPoolG cfg now files with
  | none => none
  | some pool => some (pool.mergeSort rankLE)

instance : Inhabited Ranked :=
  ⟨{ filename := [], score := 0, experience := none, experience_met := false,
     missing_mandatory := [], keyword_counts := [], found_sections := [] }⟩

instance : Inhabited Analysis :=
  ⟨{ missing_mandatory := [], keyword_counts := [], found_sections := [],
     experience := none, score := 0 }⟩

/-- The missing-mandatory list as the spec describes it: the mandatory
keywords with zero whole-word occurrences in the text. -/
def missingSpec (cfg : Config) (text : Str) : List Str :=
  cfg.mandatory.filter (fun kw => decide (countKw kw text = 0))

/-- The mandatory score as the spec states it: the sum over mandatory
keywords of occurrence count times 3. -/
def specMandScore (cfg : Config) (text : Str) : ℚ :=
  ((cfg.mandatory.map (fun kw => countKw kw text * 3)).sum : ℚ)

/-- The optional score as the spec states it: the sum over optional keywords
of occurrence count. -/
def specOptScore (cfg : Config) (text : Str) : ℚ :=
  ((cfg.optional.map (fun kw => countKw kw text)).sum : ℚ)

/-- The experience bonus as the spec states it: 0 when experience is unknown
or below the minimum, otherwise `min(experience / minimum, 1.2)` times the
keyword score times 0.2. -/
def specBonus (cfg : Config) (now : Nat × Nat) (text : Str) : ℚ :=
  match extractExperience now text with
  | none => 0
  | some e =>
    if e < cfg.minExperience then 0
    else min (e / cfg.minExperience) ((12 : ℚ) / 10) *
      (specMandScore cfg text + specOptScore cfg text) * ((2 : ℚ) / 10)

/-- The keyword-count dictionary built by `analyze_resume`: counts of the
mandatory keywords, then of the optional keywords. -/
def countsDict (cfg : Config) (text : Str) : List (Str × Nat) :=
  cfg.optional.foldl (fun d kw => dictUpd d kw (countKw kw text))
    (cfg.mandatory.foldl (fun d kw => dictUpd d kw (countKw kw text)) [])

/-- Requirements of the concrete scoring example: one mandatory keyword, one
optional keyword, minimum five years. -/
def c1Cfg : Config := mkConfig ("job").data [("python").data] [("sql").data] 5

/-- Resume text of the concrete scoring example: mandatory count 2, optional
count 1, explicit experience 6 years. -/
def c1Text : Str := ("python python sql experience: 6 years").data

/-- Text with two month-year ranges and no explicit experience statement. -/
def c5Text : Str := ("apr 2015 - apr 2016 and jul 2017 - jul 2019").data

/-- A configuration with the zero minimum experience the spec's non-negative
precondition allows. -/
def c10CfgZero : Config := mkConfig ("job").data [("python").data] [] 0

/-- The same configuration with a positive minimum. -/
def c10CfgPos : Config := mkConfig ("job").data [("python").data] [] 1

/-- Requirements for the exclusion example: two mandatory keywords. -/
def c3Cfg : Config := mkConfig ("job").data [("python").data, ("sql").data] [] 5

/-- Two resumes: the first contains both mandatory keywords, the second
contains `python` three times but `sql` zero times. -/
def c3Files : List ResumeFile :=
  [⟨("good.pdf").data, Extraction.ok ("Python and SQL expert").data⟩,
   ⟨("bad.pdf").data, Extraction.ok ("python python python").data⟩]

/-- The ranked output of the exclusion example. -/
def c3Out : List Ranked := (processResumes c3Cfg (1, 2000) c3Files).getD []

/-- Requirement whose mandatory keyword occurs in the gradio error string. -/
def c7Cfg : Config := mkConfig ("job").data [("processing").data] [] 5

/-- A resume that extracts fine and matches the mandatory keyword. -/
def c7GoodFile : ResumeFile := ⟨("ok.pdf").data, Extraction.ok ("processing expert").data⟩

/-- A resume whose extraction raises an exception. -/
def c7BadFile : ResumeFile := ⟨("bad.pdf").data, Extraction.err ("boom").data⟩

/-- Two identical resumes, hence equal ranking keys. -/
def c8Cfg : Config := mkConfig ("job").data [("python").data] [] 5

/-- Input files of the stability example, in encounter order. -/
def c8Files : List ResumeFile :=
  [⟨("a.pdf").data, Extraction.ok ("python").data⟩,
   ⟨("b.pdf").data, Extraction.ok ("python").data⟩]

/-- The candidate pool of the stability example. -/
def c8Pool : List Ranked := (buildPool c8Cfg (1, 2000) c8Files).getD []

/-! ### Helper lemmas about the dictionaries built by `analyze_resume` -/

lemma find?_map_upd_self (d : List (Str × Nat)) (k : Str) (v : Nat)
    (hany : (d.any fun p => p.1 == k) = true) :
    (d.map fun p => if p.1 == k then (k, v) else p).find? (fun p => p.1 == k) = some (k, v) := by
  induction d with
  | nil => simp at hany
  | cons p d ih =>
    by_cases hp : (p.1 == k) = true
    · simp [List.find?, hp]
    · have hp' : (p.1 == k) = false := by
        cases h2 : p.1 == k
        · rfl
        · exact absurd h2 hp
      simp only [List.any_cons, hp', Bool.false_or] at hany
      rw [List.map_cons, if_neg hp, List.find?_cons_of_neg _ (by simpa using hp')]
      exact ih hany

lemma find?_append_self (d : List (Str × Nat)) (k : Str) (v : Nat)
    (hany : (d.any fun p => p.1 == k) = false) :
    (d ++ [(k, v)]).find? (fun p => p.1 == k) = some (k, v) := by
  induction d with
  | nil => simp [List.find?]
  | cons p d ih =>
    simp only [List.any_cons, Bool.or_eq_false_iff] at hany
    simp only [List.cons_append, List.find?, hany.1]
    exact ih hany.2

lemma find?_map_upd_ne (d : List (Str × Nat)) (k : Str) (v : Nat) (k' : Str)
    (hne : ¬ k' = k) :
    (d.map fun p => if p.1 == k then (k, v) else p).find? (fun p => p.1 == k') =
      d.find? (fun p => p.1 == k') := by
  induction d with
  | nil => rfl
  | cons p d ih =>
    by_cases hp : (p.1 == k) = true
    · have hp' : p.1 = k := by simpa using hp
      have hkk' : ((k : Str) == k') = false := by
        simp only [beq_eq_false_iff_ne, ne_eq]
        exact fun h => hne h.symm
      have hpk' : (p.1 == k') = false := by rw [hp']; exact hkk'
      simp only [List.map_cons, if_pos hp, List.find?, hkk', hpk']
      exact ih
    · simp only [List.map_cons, if_neg hp, List.find?]
      cases hpk' : p.1 == k'
      · exact ih
      · rfl

lemma find?_append_ne (d : List (Str × Nat)) (k : Str) (v : Nat) (k' : Str)
    (hne : ¬ k' = k) :
    (d ++ [(k, v)]).find? (fun p => p.1 == k') = d.find? (fun p => p.1 == k') := by
  induction d with
  | nil =>
    have hkk' : ((k : Str) == k') = false := by
      simp only [beq_eq_false_iff_ne, ne_eq]
      exact fun h => hne h.symm
    simp [List.find?, hkk']
  | cons p d ih =>
    simp only [List.cons_append, List.find?]
    cases hpk' : p.1 == k'
    · exact ih
    · rfl

lemma dictGet_dictUpd (d : List (Str × Nat)) (k : Str) (v : Nat) :
    dictGet (dictUpd d k v) k = v := by
  unfold dictUpd
  by_cases hany : (d.any fun p => p.1 == k) = true
  · rw [if_pos hany]
    unfold dictGet
    rw [find?_map_upd_self d k v hany]
  · rw [if_neg hany]
    unfold dictGet
    have h2 : (d.any fun p => p.1 == k) = false := by
      cases h3 : d.any fun p => p.1 == k
      · rfl
      · exact absurd h3 hany
    rw [find?_append_self d k v h2]

lemma dictGet_dictUpd_ne (d : List (Str × Nat)) (k : Str) (v : Nat) (k' : Str)
    (hne : ¬ k' = k) :
    dictGet (dictUpd d k v) k' = dictGet d k' := by
  unfold dictUpd
  by_cases hany : (d.any fun p => p.1 == k) = true
  · rw [if_pos hany]
    unfold dictGet
    rw [find?_map_upd_ne d k v k' hne]
  · rw [if_neg hany]
    unfold dictGet
    rw [find?_append_ne d k v k' hne]

/-- Reading any of the inserted keys out of a `dictUpd` fold gives the value
function; other keys are untouched. -/
lemma dictGet_foldUpd (f : Str → Nat) (ks : List Str) (d : List (Str × Nat)) (k : Str) :
    dictGet (ks.foldl (fun d kw => dictUpd d kw (f kw)) d) k =
      if k ∈ ks then f k else dictGet d k := by
  induction ks generalizing d with
  | nil => simp
  | cons kw ks ih =>
    simp only [List.foldl_cons, ih, List.mem_cons]
    by_cases hk : k ∈ ks
    · simp [hk]
    · by_cases hkw : k = kw
      · subst hkw
        simp [hk, dictGet_dictUpd]
      · simp [hk, hkw, dictGet_dictUpd_ne _ _ _ _ hkw]

/-- The three components of the mandatory-keyword loop are independent folds. -/
lemma mandLoop_eq (text : Str) (l : List Str) (a : List Str) (b : List (Str × Nat))
    (c : List (Str × List Str)) :
    l.foldl
      (fun st kw =>
        let ms := kwFindIter kw text
        let contexts := ms.map (contextOf text)
        let missing := if ms.length = 0 then st.1 ++ [kw] else st.1
        (missing, dictUpd st.2.1 kw ms.length, sectUpd st.2.2 kw contexts))
      (a, b, c) =
    (l.foldl (fun acc kw => if countKw kw text = 0 then acc ++ [kw] else acc) a,
     l.foldl (fun d kw => dictUpd d kw (countKw kw text)) b,
     l.foldl (fun d kw => sectUpd d kw ((kwFindIter kw text).map (contextOf text))) c) := by
  induction l generalizing a b c with
  | nil => rfl
  | cons kw l ih => simpa only [List.foldl_cons] using ih _ _ _

/-- Accumulating the failing keywords is filtering. -/
lemma foldl_append_filter (p : Str → Prop) [DecidablePred p] (l : List Str) (acc : List Str) :
    l.foldl (fun acc x => if p x then acc ++ [x] else acc) acc =
      acc ++ l.filter (fun x => decide (p x)) := by
  induction l generalizing acc with
  | nil => simp
  | cons x l ih =>
    by_cases hx : p x
    · simp [hx, ih, List.filter_cons]
    · simp [hx, ih, List.filter_cons]

/-- The keyword-count dictionary of a successful analysis holds the
whole-word occurrence count of every mandatory and optional keyword. -/
lemma analyzeResume_eq (cfg : Config) (now : Nat × Nat) (text : Str) (a : Analysis)
    (h : analyzeResume cfg now text = some a) :
    a.missing_mandatory = missingSpec cfg text ∧
    (∀ kw, kw ∈ cfg.mandatory ∨ kw ∈ cfg.optional →
      dictGet a.keyword_counts kw = countKw kw text) ∧
    a.experience = extractExperience now text := by
  have hget : ∀ kw, kw ∈ cfg.mandatory ∨ kw ∈ cfg.optional →
      dictGet (cfg.optional.foldl (fun d kw => dictUpd d kw (countKw kw text))
        (cfg.mandatory.foldl (fun d kw => dictUpd d kw (countKw kw text)) [])) kw =
        countKw kw text := by
    intro kw hkw
    rw [dictGet_foldUpd, dictGet_foldUpd]
    rcases hkw with hm | ho
    · by_cases hko : kw ∈ cfg.optional <;> simp [hko, hm]
    · simp [ho]
  have hmiss : cfg.mandatory.foldl
      (fun acc kw => if countKw kw text = 0 then acc ++ [kw] else acc) [] =
      missingSpec cfg text := by
    have := foldl_append_filter (fun kw => countKw kw text = 0) cfg.mandatory []
    simpa [missingSpec] using this
  unfold analyzeResume at h
  rw [mandLoop_eq] at h
  dsimp only [] at h
  repeat' split at h
  all_goals cases h
  all_goals exact ⟨hmiss, hget, rfl⟩

lemma countsDict_eq (cfg : Config) (text : Str) :
    countsDict cfg text =
      cfg.optional.foldl (fun d kw => dictUpd d kw (countKw kw text))
        (cfg.mandatory.foldl (fun d kw => dictUpd d kw (countKw kw text)) []) := rfl

lemma countsDict_get (cfg : Config) (text : Str) (kw : Str)
    (hkw : kw ∈ cfg.mandatory ∨ kw ∈ cfg.optional) :
    dictGet (countsDict cfg text) kw = countKw kw text := by
  rw [countsDict_eq, dictGet_foldUpd, dictGet_foldUpd]
  rcases hkw with hm | ho
  · by_cases hko : kw ∈ cfg.optional <;> simp [hko, hm]
  · simp [ho]

/-- The score assembled by `analyze_resume`, written with the spec's formulas. -/
lemma analyzeResume_score (cfg : Config) (now : Nat × Nat) (text : Str) (a : Analysis)
    (h : analyzeResume cfg now text = some a) :
    a.score = specMandScore cfg text + specOptScore cfg text + specBonus cfg now text := by
  have hmand : ((cfg.mandatory.map (fun kw => dictGet (countsDict cfg text) kw * 3)).sum : ℚ) =
      specMandScore cfg text := by
    unfold specMandScore
    congr 2
    exact List.map_congr_left fun kw hkw => by rw [countsDict_get cfg text kw (Or.inl hkw)]
  have hopt : ((cfg.optional.map (fun kw => dictGet (countsDict cfg text) kw)).sum : ℚ) =
      specOptScore cfg text := by
    unfold specOptScore
    congr 2
    exact List.map_congr_left fun kw hkw => by rw [countsDict_get cfg text kw (Or.inr hkw)]
  unfold analyzeResume at h
  rw [mandLoop_eq] at h
  dsimp only [] at h
  rw [← countsDict_eq] at h
  unfold specBonus
  revert h
  rcases hE : extractExperience now text with _ | e <;> intro h <;> dsimp only [] at h ⊢
  · cases h
    dsimp only []
    rw [hmand, hopt]
  · by_cases hle : cfg.minExperience ≤ e
    · rw [if_pos hle] at h
      by_cases h0 : cfg.minExperience = 0
      · rw [if_pos h0] at h
        cases h
      · rw [if_neg h0] at h
        cases h
        dsimp only []
        rw [if_neg (not_lt.mpr hle), min_def]
        rw [hmand, hopt]
    · rw [if_neg hle] at h
      cases h
      dsimp only []
      rw [if_pos (lt_of_not_le hle)]
      rw [hmand, hopt]

/-- C1: for every successful resume analysis the total score equals
mandatory score + optional score + experience bonus, where the mandatory
score is the sum over mandatory keywords of occurrence count times 3, the
optional score is the sum over optional keywords of occurrence count, and
the bonus is 0 when experience is unknown or below the minimum and otherwise
`min(experience / min_experience, 1.2) * (mandatory + optional) * 0.2`; on
the concrete example with mandatory count 2, optional count 1, experience 6
and minimum 5 the total is 8.68 = 217/25. -/
theorem c1_total_score :
    (∀ cfg now text a, analyzeResume cfg now text = some a →
        a.score = specMandScore cfg text + specOptScore cfg text + specBonus cfg now text) ∧
    (analyzeResume c1Cfg (1, 2000) c1Text).map Analysis.score = some ((217 : ℚ) / 25) := by
  constructor
  · exact analyzeResume_score
  · with_unfolding_all rfl

/-- Witness for C1: the scoring formula applied at the concrete example. -/
theorem c1_total_score_witness :
    ((analyzeResume c1Cfg (1, 2000) c1Text).getD default).score =
      specMandScore c1Cfg c1Text + specOptScore c1Cfg c1Text +
        specBonus c1Cfg (1, 2000) c1Text :=
  c1_total_score.1 c1Cfg (1, 2000) c1Text _ (by with_unfolding_all rfl)

/-! ### Extracted experience values are nonnegative -/

lemma tryParseNum_nonneg (g : Str) (v : ℚ) (h : tryParseNum g = some v) : 0 ≤ v := by
  unfold tryParseNum at h
  dsimp only [] at h
  repeat' split at h
  all_goals cases h
  · positivity
  · positivity

lemma explicitValue_nonneg (text : Str) (v : ℚ) (h : explicitValue text = some v) :
    0 ≤ v := by
  unfold explicitValue at h
  obtain ⟨pat, _, h2⟩ := List.exists_of_findSome?_eq_some h
  obtain ⟨g, _, h3⟩ := List.exists_of_findSome?_eq_some h2
  exact tryParseNum_nonneg g v h3

lemma rangeContribution_pos (now : Nat × Nat) (m : Str) (d : ℚ)
    (h : rangeContribution now m = some d) : 0 < d := by
  unfold rangeContribution at h
  dsimp only [] at h
  repeat' split at h
  all_goals cases h
  assumption

lemma fallback_foldl (now : Nat × Nat) (rs : List Str) : ∀ (t : ℚ) (v : Nat),
    rs.foldl (fun acc m =>
      match rangeContribution now m with
      | some d => (acc.1 + d, acc.2 + 1)
      | none => acc) (t, v) =
    (t + (rs.filterMap (rangeContribution now)).sum,
     v + (rs.filterMap (rangeContribution now)).length) := by
  induction rs with
  | nil => intro t v; simp
  | cons m rs ih =>
    intro t v
    simp only [List.foldl_cons, List.filterMap_cons]
    cases hm : rangeContribution now m
    · simpa using ih t v
    · next d =>
      simp only [List.sum_cons, List.length_cons]
      rw [ih (t + d) (v + 1)]
      rw [Prod.ext_iff]
      constructor
      · dsimp only []
        ring
      · dsimp only []
        omega

lemma fallbackState_eq (now : Nat × Nat) (rs : List Str) :
    fallbackState now rs =
      ((rs.filterMap (rangeContribution now)).sum,
       (rs.filterMap (rangeContribution now)).length) := by
  unfold fallbackState
  simpa using fallback_foldl now rs 0 0

lemma dateFallback_eq (now : Nat × Nat) (text : Str) :
    dateFallback now text =
      (if (dateFindAll text).filterMap (rangeContribution now) = [] then none
       else some ((dateFindAll text).filterMap (rangeContribution now)).sum) := by
  unfold dateFallback
  rw [fallbackState_eq]
  dsimp only []
  by_cases hnil : (dateFindAll text).filterMap (rangeContribution now) = []
  · rw [if_pos hnil, hnil]
    simp
  · rw [if_neg hnil, if_pos (by simpa using List.length_pos.mpr hnil)]

lemma dateFallback_nonneg (now : Nat × Nat) (text : Str) (e : ℚ)
    (h : dateFallback now text = some e) : 0 ≤ e := by
  rw [dateFallback_eq] at h
  split at h
  · cases h
  · cases h
    refine List.sum_nonneg ?_
    intro x hx
    obtain ⟨m, _, hmx⟩ := List.mem_filterMap.mp hx
    exact le_of_lt (rangeContribution_pos now m x hmx)

lemma extractExperience_nonneg (now : Nat × Nat) (text : Str) (e : ℚ)
    (h : extractExperience now text = some e) : 0 ≤ e := by
  unfold extractExperience at h
  revert h
  cases hv : explicitValue text <;> intro h <;> dsimp only [] at h
  · exact dateFallback_nonneg now text e h
  · cases h
    exact explicitValue_nonneg text e hv

/-- C10: `analyze_resume` divides by `min_experience` without a zero guard:
with a zero minimum, any resume from which an experience value is extracted
reaches the division and raises (embedded as the `none` result); with a
positive minimum the analysis always succeeds. -/
theorem c10_unguarded_division :
    (∀ cfg now text e, cfg.minExperience = 0 → extractExperience now text = some e →
        analyzeResume cfg now text = none) ∧
    (∀ cfg now text, 0 < cfg.minExperience → (analyzeResume cfg now text).isSome = true) := by
  constructor
  · intro cfg now text e h0 hE
    have he : 0 ≤ e := extractExperience_nonneg now text e hE
    unfold analyzeResume
    rw [mandLoop_eq]
    dsimp only []
    rw [hE, h0]
    dsimp only []
    rw [if_pos he, if_pos rfl]
  · intro cfg now text hpos
    unfold analyzeResume
    dsimp only []
    cases hE : extractExperience now text
    · rfl
    · next e =>
      dsimp only []
      by_cases hle : cfg.minExperience ≤ e
      · rw [if_pos hle, if_neg (ne_of_gt hpos)]
        rfl
      · rw [if_neg hle]
        rfl

/-- Witness for C10: a concrete zero-minimum configuration crashes on a
resume with an explicit experience statement, and a positive minimum
succeeds on the same text. -/
theorem c10_unguarded_division_witness :
    analyzeResume c10CfgZero (1, 2000) c1Text = none ∧
    (analyzeResume c10CfgPos (1, 2000) c1Text).isSome = true :=
  ⟨c10_unguarded_division.1 c10CfgZero (1, 2000) c1Text 6 (by with_unfolding_all rfl)
      (by with_unfolding_all rfl),
   c10_unguarded_division.2 c10CfgPos (1, 2000) c1Text (by norm_num [c10CfgPos, mkConfig])⟩

/-- C5: when no explicit experience statement matches, extraction returns
the sum of the positive durations of all valid date ranges found (not their
average), and the absent marker when there is no valid range; every summand
is a positive duration. -/
theorem c5_fallback_sums :
    ∀ now text, explicitValue text = none →
      extractExperience now text =
        (if (dateFindAll text).filterMap (rangeContribution now) = [] then none
         else some ((dateFindAll text).filterMap (rangeContribution now)).sum) ∧
      ∀ d ∈ (dateFindAll text).filterMap (rangeContribution now), 0 < d := by
  intro now text hexp
  constructor
  · unfold extractExperience
    rw [hexp]
    dsimp only []
    exact dateFallback_eq now text
  · intro d hd
    obtain ⟨m, _, hmd⟩ := List.mem_filterMap.mp hd
    exact rangeContribution_pos now m d hmd

/-- Witness for C5: the two ranges of the concrete text are summed. -/
theorem c5_fallback_sums_witness :
    extractExperience (1, 2000) c5Text =
      (if (dateFindAll c5Text).filterMap (rangeContribution (1, 2000)) = [] then none
       else some ((dateFindAll c5Text).filterMap (rangeContribution (1, 2000))).sum) :=
  (c5_fallback_sums (1, 2000) c5Text (by with_unfolding_all rfl)).1

/-- `findSome?` returns the value of the first list entry that produces one:
if all entries before index `i` produce `none` and entry `i` produces
`some v`, the whole scan produces `some v`. -/
lemma findSome?_of_prefix_none {α β : Type} (l : List α) (f : α → Option β) :
    ∀ i x v, l.get? i = some x →
      (∀ j y, j < i → l.get? j = some y → f y = none) →
      f x = some v → l.findSome? f = some v := by
  induction l with
  | nil => intro i x v h; simp at h
  | cons a l ih =>
    intro i x v hx hj hfx
    cases i with
    | zero =>
      have ha : a = x := by simpa using hx
      subst ha
      rw [List.findSome?_cons, hfx]
    | succ i =>
      have h0 : f a = none := hj 0 a (Nat.succ_pos i) rfl
      rw [List.findSome?_cons, h0]
      exact ih i x v hx (fun j y hji hy => hj (j + 1) y (Nat.succ_lt_succ hji) hy) hfx

/-- C4: the explicit-statement patterns are consulted in their fixed list
order: the first pattern (in list order) with any match returns immediately
with the numeric value of the first match of its iteration, short-circuiting
the later patterns and the date-range fallback; on text containing
`experience: 5 years` the result is 5.0. -/
theorem c4_first_pattern_wins :
    (∀ text now i pat v g,
        patternMatchers.get? i = some pat →
        (∀ j patj, j < i → patternMatchers.get? j = some patj →
          patternMatches patj text = []) →
        (patternMatches pat text).head? = some g →
        tryParseNum g = some v →
        extractExperience now text = some v) ∧
    ∀ now, extractExperience now (("skills: python. experience: 5 years.").data) = some 5 := by
  constructor
  · intro text now i pat v g hget hj hhead hparse
    have hf : (patternMatches pat text).findSome? tryParseNum = some v := by
      revert hhead
      cases hl : patternMatches pat text with
      | nil => intro hhead; cases hhead
      | cons a l =>
        intro hhead
        have hg : a = g := by simpa using hhead
        subst hg
        rw [List.findSome?_cons, hparse]
    have hEV : explicitValue text = some v :=
      findSome?_of_prefix_none patternMatchers _ i pat v hget
        (fun j y hji hy => by rw [hj j y hji hy]; rfl) hf
    unfold extractExperience
    rw [hEV]
  · intro now
    have hEV : explicitValue (("skills: python. experience: 5 years.").data) = some 5 := by
      with_unfolding_all rfl
    unfold extractExperience
    rw [hEV]

/-- Witness for C4: pattern 2 is the first with a match on the concrete
text, and its first match value 5 is returned. -/
theorem c4_first_pattern_wins_witness :
    extractExperience (1, 2000) (("skills: python. experience: 5 years.").data) = some 5 := by
  refine c4_first_pattern_wins.1 _ (1, 2000) 1 p2At 5 (("5").data) rfl ?_ ?_ ?_
  · intro j patj hj hget
    have hj0 : j = 0 := by omega
    subst hj0
    have : p1At = patj := by simpa [patternMatchers] using hget
    subst this
    with_unfolding_all rfl
  · with_unfolding_all rfl
  · with_unfolding_all rfl

/-! ### The batch pipeline -/

/-- Every entry of the candidate pool comes from an input file whose
analysis succeeded with no missing mandatory keyword. -/
lemma buildPool_mem (cfg : Config) (now : Nat × Nat) :
    ∀ (files : List ResumeFile) (pool : List Ranked) (r : Ranked),
      buildPool cfg now files = some pool → r ∈ pool →
      ∃ f ∈ files, ∃ a, analyzeResume cfg now (extractText f.content) = some a ∧
        a.missing_mandatory = [] ∧ r = mkRanked f.filename cfg a := by
  intro files
  induction files with
  | nil =>
    intro pool r h hr
    cases h
    simp at hr
  | cons f fs ih =>
    intro pool r h hr
    unfold buildPool at h
    dsimp only [] at h
    split at h
    · split at h
      · obtain ⟨f', hf', rest⟩ := ih pool r h hr
        exact ⟨f', List.mem_cons_of_mem f hf', rest⟩
      · revert h
        cases ha : analyzeResume cfg now (extractText f.content) <;> intro h
        · cases h
        · next a =>
          revert h
          cases hbp : buildPool cfg now fs <;> intro h
          · cases h
          · next rest =>
            dsimp only [] at h
            by_cases hmiss : a.missing_mandatory = []
            · rw [if_pos hmiss] at h
              cases h
              rcases List.mem_cons.mp hr with heq | hmem
              · exact ⟨f, List.mem_cons_self f fs, a, ha, hmiss, heq⟩
              · obtain ⟨f', hf', rest'⟩ := ih rest r hbp hmem
                exact ⟨f', List.mem_cons_of_mem f hf', rest'⟩
            · rw [if_neg hmiss] at h
              cases h
              obtain ⟨f', hf', rest'⟩ := ih _ r hbp hr
              exact ⟨f', List.mem_cons_of_mem f hf', rest'⟩
    · obtain ⟨f', hf', rest⟩ := ih pool r h hr
      exact ⟨f', List.mem_cons_of_mem f hf', rest⟩

/-- An analysis has no missing mandatory keyword exactly when every mandatory
keyword occurs at least once. -/
lemma missing_empty_iff (cfg : Config) (now : Nat × Nat) (text : Str) (a : Analysis)
    (h : analyzeResume cfg now text = some a) :
    a.missing_mandatory = [] ↔ ∀ kw ∈ cfg.mandatory, 1 ≤ countKw kw text := by
  obtain ⟨hm, -, -⟩ := analyzeResume_eq cfg now text a h
  rw [hm]
  unfold missingSpec
  rw [List.filter_eq_nil_iff]
  constructor
  · intro hz kw hkw
    have := hz kw hkw
    simp only [decide_eq_true_iff] at this
    omega
  · intro hz kw hkw
    have := hz kw hkw
    simp only [decide_eq_true_iff]
    omega

/-- C3: a resume appears in the ranked output only if its missing-mandatory
set is empty, i.e. every mandatory keyword has at least one whole-word match
in its extracted text; a resume missing any mandatory keyword is excluded. -/
theorem c3_output_requires_all_mandatory :
    ∀ cfg now files out r, processResumes cfg now files = some out → r ∈ out →
      r.missing_mandatory = [] ∧
      ∃ f ∈ files, r.filename = f.filename ∧
        ∀ kw ∈ cfg.mandatory, 1 ≤ countKw kw (extractText f.content) := by
  intro cfg now files out r hp hr
  unfold processResumes at hp
  revert hp
  cases hbp : buildPool cfg now files <;> intro hp
  · cases hp
  · next pool =>
    cases hp
    rw [List.mem_mergeSort] at hr
    obtain ⟨f, hf, a, ha, hmiss, hrq⟩ := buildPool_mem cfg now files pool r hbp hr
    subst hrq
    refine ⟨by simpa [mkRanked] using hmiss, f, hf, rfl, ?_⟩
    exact (missing_empty_iff cfg now (extractText f.content) a ha).mp hmiss

/-- Witness for C3: in the concrete two-file batch only the resume with both
mandatory keywords survives, and it indeed has every mandatory keyword. -/
theorem c3_output_requires_all_mandatory_witness :
    (c3Out.headD default).missing_mandatory = [] ∧
    ∃ f ∈ c3Files, (c3Out.headD default).filename = f.filename ∧
      ∀ kw ∈ c3Cfg.mandatory, 1 ≤ countKw kw (extractText f.content) := by
  have hsome : processResumes c3Cfg (1, 2000) c3Files = some c3Out := by
    with_unfolding_all rfl
  have hlen : c3Out.length = 1 := by with_unfolding_all rfl
  have hmem : c3Out.headD default ∈ c3Out := by
    cases hc : c3Out with
    | nil => rw [hc] at hlen; simp at hlen
    | cons a l => simp
  exact c3_output_requires_all_mandatory c3Cfg (1, 2000) c3Files c3Out
    (c3Out.headD default) hsome hmem

/-- A resume whose extracted text strips to empty is skipped by the loop. -/
lemma buildPool_cons_skip (cfg : Config) (now : Nat × Nat) (f : ResumeFile)
    (fs : List ResumeFile) (hf : strip (extractText f.content) = []) :
    buildPool cfg now (f :: fs) = buildPool cfg now fs := by
  rw [buildPool.eq_def cfg now (f :: fs)]
  dsimp only []
  by_cases hs : supportedExt f.filename = true
  · rw [if_pos hs, if_pos hf]
  · rw [if_neg hs]

/-- The loop step only looks at its own file, so equal tails give equal pools. -/
lemma buildPool_cons_congr (cfg : Config) (now : Nat × Nat) (g : ResumeFile)
    (A B : List ResumeFile) (h : buildPool cfg now A = buildPool cfg now B) :
    buildPool cfg now (g :: A) = buildPool cfg now (g :: B) := by
  rw [buildPool.eq_def cfg now (g :: A), buildPool.eq_def cfg now (g :: B)]
  dsimp only []
  rw [h]

/-- Removing a resume whose extracted text strips to empty does not change
the candidate pool: it is skipped and the rest of the batch proceeds. -/
lemma buildPool_skip (cfg : Config) (now : Nat × Nat) (f : ResumeFile)
    (hf : strip (extractText f.content) = []) :
    ∀ fs1 fs2 : List ResumeFile,
      buildPool cfg now (fs1 ++ f :: fs2) = buildPool cfg now (fs1 ++ fs2) := by
  intro fs1
  induction fs1 with
  | nil =>
    intro fs2
    simp only [List.nil_append]
    exact buildPool_cons_skip cfg now f fs2 hf
  | cons g fs1 ih =>
    intro fs2
    simp only [List.cons_append]
    exact buildPool_cons_congr cfg now g _ _ (ih fs2)

/-- C7 (amended): in the directory-based pipeline of `resume_filter.py`, a
resume whose extraction raised (yielding empty text) or whose extracted text
is whitespace-only is excluded from the results without aborting the batch:
the output equals the output of the batch without that file. -/
theorem c7_failed_extraction_skipped :
    (∀ cfg now fs1 fs2 (f : ResumeFile), strip (extractText f.content) = [] →
        processResumes cfg now (fs1 ++ f :: fs2) = processResumes cfg now (fs1 ++ fs2)) ∧
    (∀ cfg now fs1 fs2 (name msg : Str),
        processResumes cfg now (fs1 ++ ⟨name, Extraction.err msg⟩ :: fs2) =
          processResumes cfg now (fs1 ++ fs2)) := by
  have hmain : ∀ cfg now fs1 fs2 (f : ResumeFile), strip (extractText f.content) = [] →
      processResumes cfg now (fs1 ++ f :: fs2) = processResumes cfg now (fs1 ++ fs2) := by
    intro cfg now fs1 fs2 f hf
    unfold processResumes
    rw [buildPool_skip cfg now f hf fs1 fs2]
  exact ⟨hmain, fun cfg now fs1 fs2 name msg => hmain cfg now fs1 fs2 ⟨name, .err msg⟩ rfl⟩

/-- Witness for C7: dropping the failing resume from a concrete batch leaves
the output unchanged. -/
theorem c7_failed_extraction_skipped_witness :
    processResumes c7Cfg (1, 2000) [c7GoodFile, c7BadFile] =
      processResumes c7Cfg (1, 2000) [c7GoodFile] := by
  have h := c7_failed_extraction_skipped.1 c7Cfg (1, 2000) [c7GoodFile] [] c7BadFile rfl
  simpa using h

/-- Counterexample for C7 as stated: in the gradio pipeline an extraction
exception produces the error message as text, which is analyzed and ranked —
the failing resume appears in the output instead of being excluded. -/
theorem c7_gradio_counterexample :
    (processResumesG c7Cfg (1, 2000) [⟨("report.pdf").data, Extraction.err ("boom").data⟩]).map
      (fun l => l.map Ranked.filename) = some [("report.pdf").data] := by
  with_unfolding_all rfl

/-- The ranking comparison is total. -/
lemma rankLE_total : ∀ a b : Ranked, rankLE a b || rankLE b a := by
  intro a b
  simp only [rankLE, Bool.or_eq_true, Bool.and_eq_true, decide_eq_true_iff, beq_iff_eq]
  rcases lt_trichotomy a.score b.score with h | h | h
  · exact Or.inr (Or.inl h)
  · by_cases ha : a.experience_met <;> by_cases hb : b.experience_met <;>
      simp [ha, hb, h]
  · exact Or.inl (Or.inl h)

/-- The ranking comparison is transitive. -/
lemma rankLE_trans : ∀ a b c : Ranked, rankLE a b → rankLE b c → rankLE a c := by
  intro a b c hab hbc
  simp only [rankLE, Bool.or_eq_true, Bool.and_eq_true, decide_eq_true_iff,
    beq_iff_eq] at hab hbc ⊢
  rcases hab with hab | ⟨hab1, hab2⟩
  · rcases hbc with hbc | ⟨hbc1, hbc2⟩
    · exact Or.inl (lt_trans hbc hab)
    · exact Or.inl (hbc1 ▸ hab)
  · rcases hbc with hbc | ⟨hbc1, hbc2⟩
    · exact Or.inl (hab1 ▸ hbc)
    · exact Or.inr ⟨hab1.trans hbc1, le_trans hbc2 hab2⟩

/-- C8: ranking sorts the candidate pool by score descending then by the
experience-met flag descending with a stable sort: the output is sorted by
the key, is a permutation of the pool, and any two pool entries with equal
keys keep their input order. -/
theorem c8_stable_sort :
    ∀ cfg now files pool, buildPool cfg now files = some pool →
      processResumes cfg now files = some (pool.mergeSort rankLE) ∧
      (pool.mergeSort rankLE).Pairwise (fun a b => rankLE a b = true) ∧
      (pool.mergeSort rankLE).Perm pool ∧
      ∀ x y, rankLE x y = true → rankLE y x = true →
        [x, y].Sublist pool → [x, y].Sublist (pool.mergeSort rankLE) := by
  intro cfg now files pool hbp
  refine ⟨?_, ?_, ?_, ?_⟩
  · unfold processResumes
    rw [hbp]
  · exact List.sorted_mergeSort rankLE_trans rankLE_total pool
  · exact List.mergeSort_perm pool rankLE
  · intro x y hxy _ hsub
    exact List.pair_sublist_mergeSort rankLE_trans rankLE_total hxy hsub

/-- Witness for C8: the concrete two-candidate pool is sorted stably. -/
theorem c8_stable_sort_witness :
    processResumes c8Cfg (1, 2000) c8Files = some (c8Pool.mergeSort rankLE) ∧
    (c8Pool.mergeSort rankLE).Pairwise (fun a b => rankLE a b = true) := by
  have hbp : buildPool c8Cfg (1, 2000) c8Files = some c8Pool := by
    with_unfolding_all rfl
  have h := c8_stable_sort c8Cfg (1, 2000) c8Files c8Pool hbp
  exact ⟨h.1, h.2.1⟩

/-! ### Whole-word keyword matching -/

/-- A whole-word match fits inside the text. -/
lemma kwMatchAt_bounds (kw text : Str) (i : Nat) (hne : kw ≠ [])
    (h : kwMatchAt kw text i = true) : i + kw.length ≤ text.length := by
  unfold kwMatchAt at h
  simp only [Bool.and_eq_true, beq_iff_eq] at h
  have hlen : ((text.drop i).take kw.length).length = kw.length := by rw [h.1.1]
  rw [List.length_take, List.length_drop] at hlen
  have h3 := Nat.min_le_right kw.length (text.length - i)
  have hpos : 0 < kw.length := List.length_pos.mpr hne
  omega

/-- Inside a whole-word match the text agrees with the keyword. -/
lemma kwMatchAt_char (kw text : Str) (i t : Nat) (h : kwMatchAt kw text i = true)
    (ht : t < kw.length) : text[i + t]? = kw[t]? := by
  unfold kwMatchAt at h
  simp only [Bool.and_eq_true, beq_iff_eq] at h
  calc text[i + t]? = (text.drop i)[t]? := (List.getElem?_drop text i t).symm
    _ = ((text.drop i).take kw.length)[t]? := (List.getElem?_take_of_lt ht).symm
    _ = kw[t]? := by rw [h.1.1]

/-- For a keyword of word characters, every position inside a match is a
word position of the text. -/
lemma wordAt_of_occurrence (kw text : Str) (hw : ∀ c ∈ kw, isWordC c = true)
    (i : Nat) (hi : kwMatchAt kw text i = true) (t : Nat) (ht : t < kw.length) :
    wordAt text (i + t) = true := by
  have hc := kwMatchAt_char kw text i t hi ht
  unfold wordAt
  rw [hc, List.getElem?_eq_getElem ht]
  exact hw _ (List.getElem_mem ht)

/-- For a keyword of word characters, matches cannot overlap: no whole-word
match can start strictly inside another. -/
lemma kwMatchAt_no_overlap (kw text : Str) (hw : ∀ c ∈ kw, isWordC c = true)
    (i j : Nat) (hi : kwMatchAt kw text i = true) (hij : i < j)
    (hj : j < i + kw.length) : kwMatchAt kw text j = false := by
  cases hmj : kwMatchAt kw text j
  · rfl
  · exfalso
    have h1 : wordAt text (j - 1) = true := by
      have := wordAt_of_occurrence kw text hw i hi ((j - 1) - i) (by omega)
      rwa [show i + ((j - 1) - i) = j - 1 by omega] at this
    obtain ⟨k, rfl⟩ : ∃ k, j = k + 1 := ⟨j - 1, by omega⟩
    have h2 : wordAt text (k + 1) = true := by
      have := wordAt_of_occurrence kw text hw i hi ((k + 1) - i) (by omega)
      rwa [show i + ((k + 1) - i) = k + 1 by omega] at this
    unfold kwMatchAt at hmj
    simp only [Bool.and_eq_true] at hmj
    have hb : (wordAt text k != wordAt text (k + 1)) = true := hmj.1.2
    rw [show k + 1 - 1 = k from rfl] at h1
    rw [h1, h2] at hb
    simp at hb

/-- Every index pair produced by the scan is a whole-word match. -/
lemma kwScanAux_sound (kw text : Str) :
    ∀ fuel i p e, (p, e) ∈ kwScanAux kw text fuel i → kwMatchAt kw text p = true := by
  intro fuel
  induction fuel with
  | zero => intro i p e h; simp [kwScanAux] at h
  | succ fuel ih =>
    intro i p e h
    unfold kwScanAux at h
    split at h
    · simp at h
    · split at h
      · next hm =>
        rcases List.mem_cons.mp h with heq | hmem
        · rw [Prod.mk.injEq] at heq
          obtain ⟨rfl, -⟩ := heq
          exact hm
        · exact ih _ p e hmem
      · exact ih _ p e h

/-- If some whole-word match exists at or after the scan position, the scan
finds a match. -/
lemma kwScanAux_complete (kw text : Str) (hne : kw ≠ []) :
    ∀ fuel i j, text.length - i ≤ fuel → i ≤ j → kwMatchAt kw text j = true →
      kwScanAux kw text fuel i ≠ [] := by
  intro fuel
  induction fuel with
  | zero =>
    intro i j hfuel hij hj
    exfalso
    have hb := kwMatchAt_bounds kw text j hne hj
    have hpos : 0 < kw.length := List.length_pos.mpr hne
    omega
  | succ fuel ih =>
    intro i j hfuel hij hj
    unfold kwScanAux
    split
    · next hle =>
      exfalso
      have hb := kwMatchAt_bounds kw text j hne hj
      have hpos : 0 < kw.length := List.length_pos.mpr hne
      omega
    · split
      · simp
      · next hm =>
        have hij' : i + 1 ≤ j := by
          rcases Nat.eq_or_lt_of_le hij with rfl | h
          · exact absurd hj (by simp [hm])
          · omega
        exact ih (i + 1) j (by omega) hij' hj

/-- For a nonempty keyword of word characters, the scan finds exactly one
match per whole-word occurrence position. -/
lemma kwScanAux_count (kw text : Str) (hne : kw ≠ []) (hw : ∀ c ∈ kw, isWordC c = true) :
    ∀ fuel i, text.length - i ≤ fuel →
      (kwScanAux kw text fuel i).length =
        (List.range' i (text.length - i)).countP (fun j => kwMatchAt kw text j) := by
  intro fuel
  induction fuel with
  | zero =>
    intro i hfuel
    have h0 : text.length - i = 0 := by omega
    rw [h0]
    simp [kwScanAux]
  | succ fuel ih =>
    intro i hfuel
    unfold kwScanAux
    split
    · next hle =>
      have h0 : text.length - i = 0 := by omega
      rw [h0]
      simp
    · next hle =>
      have hpos : 0 < kw.length := List.length_pos.mpr hne
      split
      · next hm =>
        have hb := kwMatchAt_bounds kw text i hne hm
        rw [List.length_cons]
        rw [show i + max kw.length 1 = i + kw.length from by omega]
        rw [ih (i + kw.length) (by omega)]
        have hsplit : text.length - i = (text.length - (i + kw.length)) + kw.length := by
          omega
        rw [hsplit, ← List.range'_append_1 i kw.length (text.length - (i + kw.length)),
          List.countP_append]
        have hcount1 : (List.range' i kw.length).countP
            (fun j => kwMatchAt kw text j) = 1 := by
          obtain ⟨k, hk⟩ : ∃ k, kw.length = k + 1 := ⟨kw.length - 1, by omega⟩
          rw [hk, List.range'_succ]
          rw [List.countP_cons_of_pos _ _ (by simpa using hm)]
          have hzero : (List.range' (i + 1) k).countP
              (fun j => kwMatchAt kw text j) = 0 := by
            rw [List.countP_eq_zero]
            intro j hj
            rw [List.mem_range'_1] at hj
            have := kwMatchAt_no_overlap kw text hw i j hm (by omega) (by omega)
            simp [this]
          omega
        omega
      · next hm =>
        rw [ih (i + 1) (by omega)]
        have hsplit : text.length - i = (text.length - (i + 1)) + 1 := by omega
        rw [hsplit, ← List.range'_append_1 i 1 (text.length - (i + 1)),
          List.countP_append]
        have hzero : (List.range' i 1).countP (fun j => kwMatchAt kw text j) = 0 := by
          rw [List.range'_one]
          simp [hm]
        omega

/-- The occurrence count for a keyword of word characters equals the number
of positions carrying a whole-word match. -/
lemma countKw_eq_countP (kw text : Str) (hne : kw ≠ [])
    (hw : ∀ c ∈ kw, isWordC c = true) :
    countKw kw text = (List.range text.length).countP (fun j => kwMatchAt kw text j) := by
  unfold countKw kwFindIter
  rw [kwScanAux_count kw text hne hw text.length 0 (by omega)]
  rw [List.range_eq_range']
  norm_num

/-- The count is positive exactly when some whole-word match exists. -/
lemma countKw_pos_iff (kw text : Str) (hne : kw ≠ []) :
    1 ≤ countKw kw text ↔ ∃ i, kwMatchAt kw text i = true := by
  constructor
  · intro h
    unfold countKw kwFindIter at h
    cases hs : kwScanAux kw text text.length 0 with
    | nil => rw [hs] at h; simp at h
    | cons pe rest =>
      refine ⟨pe.1, kwScanAux_sound kw text text.length 0 pe.1 pe.2 ?_⟩
      rw [hs]
      exact List.mem_cons_self pe rest
  · rintro ⟨i, hi⟩
    have hne' := kwScanAux_complete kw text hne text.length 0 i (by omega)
      (Nat.zero_le i) hi
    unfold countKw kwFindIter
    have := List.length_pos.mpr hne'
    omega

/-- C6: keyword counting is whole-word matching of the keyword as an escaped
literal: the count is positive exactly when a whole-word occurrence exists,
for keywords made of word characters the count equals the number of
whole-word occurrence positions, and concretely the lower-cased pipeline
counts `Python` once for keyword `python`, counts `pythonic` text as zero,
and treats the regex-special keyword `c++` literally. -/
theorem c6_whole_word_counts :
    (∀ kw text : Str, kw ≠ [] →
        (1 ≤ countKw kw text ↔ ∃ i, kwMatchAt kw text i = true)) ∧
    (∀ kw text : Str, kw ≠ [] → (∀ c ∈ kw, isWordC c = true) →
        countKw kw text = (List.range text.length).countP (fun j => kwMatchAt kw text j)) ∧
    countKw (lowerStr ("python").data) (lowerStr ("I love Python and APIs").data) = 1 ∧
    countKw ("python").data ("writes pythonic code").data = 0 ∧
    countKw ("c++").data ("uses c++11 daily").data = 1 := by
  refine ⟨fun kw text hne => countKw_pos_iff kw text hne,
    fun kw text hne hw => countKw_eq_countP kw text hne hw, ?_, ?_, ?_⟩
  · with_unfolding_all rfl
  · with_unfolding_all rfl
  · with_unfolding_all rfl

/-- Witness for C6: both general parts instantiated on a concrete keyword
and text. -/
theorem c6_whole_word_counts_witness :
    (1 ≤ countKw ("python").data ("i use python daily").data ↔
      ∃ i, kwMatchAt ("python").data ("i use python daily").data i = true) ∧
    countKw ("python").data ("i use python daily").data =
      (List.range (("i use python daily").data).length).countP
        (fun j => kwMatchAt ("python").data ("i use python daily").data j) :=
  ⟨c6_whole_word_counts.1 _ _ (by decide),
   c6_whole_word_counts.2.1 _ _ (by decide) (by decide)⟩

/-! ### Character classes interact as expected -/

lemma space_chars (c : Char) (h : isPySpace c = true) :
    c = ' ' ∨ c = '\t' ∨ c = '\n' ∨ c = '\r' ∨ c = '\x0b' ∨ c = '\x0c' := by
  unfold isPySpace at h
  simp only [Bool.or_eq_true, decide_eq_true_iff] at h
  tauto

lemma dash_chars (c : Char) (h : isDashC c = true) : c = '-' ∨ c = '–' ∨ c = '—' := by
  unfold isDashC at h
  simp only [Bool.or_eq_true, decide_eq_true_iff] at h
  tauto

lemma space_not_dash (c : Char) (h : isPySpace c = true) : isDashC c = false := by
  rcases space_chars c h with rfl | rfl | rfl | rfl | rfl | rfl <;> decide

lemma space_not_alpha (c : Char) (h : isPySpace c = true) : isAsciiAlpha c = false := by
  rcases space_chars c h with rfl | rfl | rfl | rfl | rfl | rfl <;> decide

lemma space_lower_self (c : Char) (h : isPySpace c = true) : asciiLower c = c := by
  rcases space_chars c h with rfl | rfl | rfl | rfl | rfl | rfl <;> decide

lemma dash_not_alpha (c : Char) (h : isDashC c = true) : isAsciiAlpha c = false := by
  rcases dash_chars c h with rfl | rfl | rfl <;> decide

lemma dash_not_digit (c : Char) (h : isDashC c = true) : isDigitC c = false := by
  rcases dash_chars c h with rfl | rfl | rfl <;> decide

lemma dash_lower_self (c : Char) (h : isDashC c = true) : asciiLower c = c := by
  rcases dash_chars c h with rfl | rfl | rfl <;> decide

lemma alpha_not_dash (c : Char) (h : isAsciiAlpha c = true) : isDashC c = false := by
  cases hd : isDashC c
  · rfl
  · rw [dash_not_alpha c hd] at h
    cases h

lemma alpha_not_space (c : Char) (h : isAsciiAlpha c = true) : isPySpace c = false := by
  cases hs : isPySpace c
  · rfl
  · rw [space_not_alpha c hs] at h
    cases h

lemma digit_not_dash (c : Char) (h : isDigitC c = true) : isDashC c = false := by
  cases hd : isDashC c
  · rfl
  · rw [dash_not_digit c hd] at h
    cases h

lemma digit_not_space (c : Char) (h : isDigitC c = true) : isPySpace c = false := by
  cases hs : isPySpace c
  · rfl
  · rcases space_chars c hs with rfl | rfl | rfl | rfl | rfl | rfl <;> cases h

lemma digit_lower_self (c : Char) (h : isDigitC c = true) : asciiLower c = c := by
  unfold isDigitC at h
  simp only [Bool.and_eq_true, decide_eq_true_iff] at h
  have hno : ¬ (('A' ≤ c && c ≤ 'Z') = true) := by
    simp only [Bool.and_eq_true, decide_eq_true_iff, not_and]
    intro hA
    exact fun _ => absurd (le_trans hA h.2) (by decide)
  unfold asciiLower
  rw [if_neg hno]

lemma lower_alpha_not_dash (c : Char) (h : isAsciiAlpha (asciiLower c) = true) :
    isDashC c = false := by
  cases hd : isDashC c
  · rfl
  · rw [dash_lower_self c hd, dash_not_alpha c hd] at h
    cases h

lemma lower_alpha_not_space (c : Char) (h : isAsciiAlpha (asciiLower c) = true) :
    isPySpace c = false := by
  cases hs : isPySpace c
  · rfl
  · rw [space_lower_self c hs, space_not_alpha c hs] at h
    cases h

/-! ### `re.split` on the dash separators of a matched range -/

lemma splitOnDash_no_dash (l : Str) (h : ∀ c ∈ l, isDashC c = false) :
    splitOnDash l = [l] := by
  induction l with
  | nil => rfl
  | cons c cs ih =>
    unfold splitOnDash
    rw [if_neg (by rw [h c (List.mem_cons_self c cs)]; simp)]
    rw [ih (fun x hx => h x (List.mem_cons_of_mem c hx))]

lemma splitOnDash_single (A B : Str) (d : Char) (hA : ∀ c ∈ A, isDashC c = false)
    (hd : isDashC d = true) (hB : ∀ c ∈ B, isDashC c = false) :
    splitOnDash (A ++ d :: B) = [A, B] := by
  induction A with
  | nil =>
    simp only [List.nil_append]
    unfold splitOnDash
    rw [if_pos hd, splitOnDash_no_dash B hB]
  | cons a A ih =>
    simp only [List.cons_append]
    unfold splitOnDash
    rw [if_neg (by rw [hA a (List.mem_cons_self a A)]; simp)]
    rw [ih (fun x hx => hA x (List.mem_cons_of_mem a hx))]

lemma dropWhile_append_all (p : Char → Bool) (xs ys : Str)
    (h : ∀ x ∈ xs, p x = true) : (xs ++ ys).dropWhile p = ys.dropWhile p := by
  induction xs with
  | nil => rfl
  | cons x xs ih =>
    rw [List.cons_append, List.dropWhile_cons_of_pos (h x (List.mem_cons_self x xs))]
    exact ih (fun y hy => h y (List.mem_cons_of_mem x hy))

lemma stripL_spaces_append (sps : Str) (c0 : Char) (rest' : Str)
    (hs : ∀ c ∈ sps, isPySpace c = true) (hc0 : isPySpace c0 = false) :
    stripL (sps ++ c0 :: rest') = c0 :: rest' := by
  unfold stripL
  rw [dropWhile_append_all _ sps _ hs, List.dropWhile_cons_of_neg (by simp [hc0])]

lemma stripR_of_last (l : Str) (d : Char) (hl : l.getLast? = some d)
    (hd : isPySpace d = false) : stripR l = l := by
  unfold stripR
  have h1 : l.reverse.head? = some d := by rw [List.head?_reverse, hl]
  cases hr : l.reverse with
  | nil => rw [hr] at h1; cases h1
  | cons x xs =>
    rw [hr] at h1
    have hx : x = d := by simpa using h1
    subst hx
    rw [List.dropWhile_cons_of_neg (by simp [hd]), ← hr, List.reverse_reverse]

lemma strip_of_ends (c0 : Char) (l' : Str) (d : Char)
    (h0 : isPySpace c0 = false) (hl : (c0 :: l').getLast? = some d)
    (hd : isPySpace d = false) : strip (c0 :: l') = c0 :: l' := by
  unfold strip
  have h1 : stripL (c0 :: l') = c0 :: l' := by
    unfold stripL
    rw [List.dropWhile_cons_of_neg (by simp [h0])]
  rw [h1]
  exact stripR_of_last _ d hl hd

/-! ### Structure of the substrings matched by the date pattern -/

/-- A recognised month abbreviation is three ASCII letters. -/
lemma monthNum3_alpha (s : Str) (n : Nat) (h : monthNum3 s = some n) :
    s.length = 3 ∧ ∀ c ∈ s, isAsciiAlpha c = true := by
  unfold monthNum3 at h
  by_cases hjan : s = ("jan").data
  · subst hjan
    exact ⟨by decide, by decide⟩
  rw [if_neg hjan] at h
  by_cases hfeb : s = ("feb").data
  · subst hfeb
    exact ⟨by decide, by decide⟩
  rw [if_neg hfeb] at h
  by_cases hmar : s = ("mar").data
  · subst hmar
    exact ⟨by decide, by decide⟩
  rw [if_neg hmar] at h
  by_cases hapr : s = ("apr").data
  · subst hapr
    exact ⟨by decide, by decide⟩
  rw [if_neg hapr] at h
  by_cases hmay : s = ("may").data
  · subst hmay
    exact ⟨by decide, by decide⟩
  rw [if_neg hmay] at h
  by_cases hjun : s = ("jun").data
  · subst hjun
    exact ⟨by decide, by decide⟩
  rw [if_neg hjun] at h
  by_cases hjul : s = ("jul").data
  · subst hjul
    exact ⟨by decide, by decide⟩
  rw [if_neg hjul] at h
  by_cases haug : s = ("aug").data
  · subst haug
    exact ⟨by decide, by decide⟩
  rw [if_neg haug] at h
  by_cases hsep : s = ("sep").data
  · subst hsep
    exact ⟨by decide, by decide⟩
  rw [if_neg hsep] at h
  by_cases hoct : s = ("oct").data
  · subst hoct
    exact ⟨by decide, by decide⟩
  rw [if_neg hoct] at h
  by_cases hnov : s = ("nov").data
  · subst hnov
    exact ⟨by decide, by decide⟩
  rw [if_neg hnov] at h
  by_cases hdec : s = ("dec").data
  · subst hdec
    exact ⟨by decide, by decide⟩
  rw [if_neg hdec] at h
  cases h

/-- The shape of a `month-year` match: it reassembles the input, starts with
a non-space non-dash character, contains no dash, and ends with a digit. -/
lemma monthYearTok_struct (cs m rest : Str) (h : monthYearTok cs = some (m, rest)) :
    cs = m ++ rest ∧
    (∃ c0 m', m = c0 :: m' ∧ isPySpace c0 = false) ∧
    (∀ c ∈ m, isDashC c = false) ∧
    (∃ d, m.getLast? = some d ∧ isDigitC d = true) := by
  unfold monthYearTok at h
  revert h
  cases hmn : monthNum3 (lowerStr (cs.take 3)) <;> intro h
  · cases h
  · next n =>
    dsimp only [] at h
    revert h
    split <;> intro h
    · next hguard =>
      simp only [Bool.and_eq_true, decide_eq_true_iff] at hguard
      obtain ⟨hyrlen, hyrdig⟩ := hguard
      rw [List.all_eq_true] at hyrdig
      rw [Option.some.injEq, Prod.mk.injEq] at h
      obtain ⟨hm, hrest⟩ := h
      obtain ⟨h3len, h3alpha⟩ := monthNum3_alpha _ n hmn
      have htake3 : ∀ c ∈ cs.take 3, isAsciiAlpha (asciiLower c) = true := by
        intro c hc
        exact h3alpha (asciiLower c) (List.mem_map_of_mem asciiLower hc)
      have htake3len : (cs.take 3).length = 3 := by
        have : (lowerStr (cs.take 3)).length = 3 := h3len
        simpa [lowerStr] using this
      have hyrne : ((((cs.drop 3).dropWhile isAsciiAlpha).dropWhile isPySpace).take 4) ≠ [] := by
        intro h0
        rw [h0] at hyrlen
        cases hyrlen
      constructor
      · rw [← hrest, ← hm]
        conv_lhs => rw [← List.take_append_drop 3 cs,
          ← List.takeWhile_append_dropWhile isAsciiAlpha (cs.drop 3),
          ← List.takeWhile_append_dropWhile isPySpace ((cs.drop 3).dropWhile isAsciiAlpha),
          ← List.take_append_drop 4 (((cs.drop 3).dropWhile isAsciiAlpha).dropWhile isPySpace)]
        simp [List.append_assoc]
      constructor
      · obtain ⟨c0, t3, hc3⟩ : ∃ c0 t3, cs.take 3 = c0 :: t3 := by
          cases hc : cs.take 3 with
          | nil => rw [hc] at htake3len; cases htake3len
          | cons a b => exact ⟨a, b, rfl⟩
        refine ⟨c0, t3 ++ ((cs.drop 3).takeWhile isAsciiAlpha ++
          (((cs.drop 3).dropWhile isAsciiAlpha).takeWhile isPySpace ++
            (((cs.drop 3).dropWhile isAsciiAlpha).dropWhile isPySpace).take 4)), ?_, ?_⟩
        · rw [← hm, hc3]
          simp [List.append_assoc]
        · exact lower_alpha_not_space c0 (htake3 c0 (by rw [hc3]; exact List.mem_cons_self c0 t3))
      constructor
      · intro c hc
        rw [← hm] at hc
        simp only [List.mem_append] at hc
        rcases hc with ((hc | hc) | hc) | hc
        · exact lower_alpha_not_dash c (htake3 c hc)
        · exact alpha_not_dash c (List.mem_takeWhile_imp hc)
        · exact space_not_dash c (List.mem_takeWhile_imp hc)
        · exact digit_not_dash c (by simpa using hyrdig c (by simpa using hc))

      · have hyr := hyrne
        obtain ⟨d, hd⟩ : ∃ d, ((((cs.drop 3).dropWhile isAsciiAlpha).dropWhile
            isPySpace).take 4).getLast? = some d := by
          cases hg : ((((cs.drop 3).dropWhile isAsciiAlpha).dropWhile
              isPySpace).take 4).getLast? with
          | none => exact absurd (List.getLast?_eq_none_iff.mp hg) hyr
          | some d => exact ⟨d, rfl⟩
        refine ⟨d, ?_, ?_⟩
        · rw [← hm]
          rw [List.append_assoc, List.append_assoc]
          rw [List.getLast?_append, List.getLast?_append, List.getLast?_append, hd]
          rfl
        · have hdm := List.mem_of_getLast?_eq_some hd
          simpa using hyrdig d (by simpa using hdm)

    · cases h

/-- A `present` match is the word `present` up to case, hence dash-free. -/
lemma presentTok_shape (prev : Option Char) (cs m rest : Str)
    (h : presentTok prev cs = some (m, rest)) :
    lowerStr m = ("present").data ∧ ∀ c ∈ m, isDashC c = false := by
  unfold presentTok at h
  dsimp only [] at h
  revert h
  split <;> intro h
  · next hguard =>
    simp only [Bool.and_eq_true, decide_eq_true_iff] at hguard
    rw [Option.some.injEq, Prod.mk.injEq] at h
    obtain ⟨hm, -⟩ := h
    subst hm
    refine ⟨hguard.1.1, ?_⟩
    intro c hc
    have hmem : asciiLower c ∈ lowerStr (cs.take 7) := List.mem_map_of_mem asciiLower hc
    rw [hguard.1.1] at hmem
    have halpha : isAsciiAlpha (asciiLower c) = true := by
      have hall : ∀ x ∈ ("present").data, isAsciiAlpha x = true := by decide
      exact hall _ hmem
    exact lower_alpha_not_dash c halpha
  · cases h

/-- The loop body is clock-independent on a substring matched by the range
alternative: its end part is a month-year, never the word `present`. -/
lemma dateRangeTok_contribution (cs m rest : Str) (h : dateRangeTok cs = some (m, rest))
    (now now' : Nat × Nat) : rangeContribution now m = rangeContribution now' m := by
  unfold dateRangeTok at h
  revert h
  cases h1 : monthYearTok cs <;> intro h
  · cases h
  · next p1 =>
    obtain ⟨m1, r1⟩ := p1
    dsimp only [] at h
    revert h
    cases h2 : r1.dropWhile isPySpace <;> intro h
    · cases h
    · next d r3 =>
      have h' : (if isDashC d then
            match monthYearTok (r3.dropWhile isPySpace) with
            | none => none
            | some (m2, r5) =>
              some (m1 ++ r1.takeWhile isPySpace ++ (d :: r3.takeWhile isPySpace) ++ m2, r5)
          else none) = some (m, rest) := h
      by_cases hd : isDashC d = true
      · rw [if_pos hd] at h'
        revert h'
        cases h3 : monthYearTok (r3.dropWhile isPySpace) <;> intro h'
        · cases h'
        · next p2 =>
          obtain ⟨m2, r5⟩ := p2
          have h4 : some (m1 ++ r1.takeWhile isPySpace ++
              (d :: r3.takeWhile isPySpace) ++ m2, r5) = some (m, rest) := h'
          rw [Option.some.injEq, Prod.mk.injEq] at h4
          obtain ⟨hm, -⟩ := h4
          obtain ⟨-, -, hm1dash, -⟩ := monthYearTok_struct cs m1 r1 h1
          obtain ⟨-, ⟨c0, m2', hm2cons, hc0⟩, hm2dash, dd, hlast, hdd⟩ :=
            monthYearTok_struct _ m2 r5 h3
          have hmform : m = (m1 ++ r1.takeWhile isPySpace) ++
              d :: (r3.takeWhile isPySpace ++ m2) := by
            rw [← hm]
            simp [List.append_assoc]
          have hA : ∀ c ∈ m1 ++ r1.takeWhile isPySpace, isDashC c = false := by
            intro c hc
            rcases List.mem_append.mp hc with hc | hc
            · exact hm1dash c hc
            · exact space_not_dash c (List.mem_takeWhile_imp hc)
          have hB : ∀ c ∈ r3.takeWhile isPySpace ++ m2, isDashC c = false := by
            intro c hc
            rcases List.mem_append.mp hc with hc | hc
            · exact space_not_dash c (List.mem_takeWhile_imp hc)
            · exact hm2dash c hc
          have hsplit : splitOnDash m =
              [m1 ++ r1.takeWhile isPySpace, r3.takeWhile isPySpace ++ m2] := by
            rw [hmform]
            exact splitOnDash_single _ _ d hA hd hB
          have hreSplit : reSplitDash m =
              [stripR (m1 ++ r1.takeWhile isPySpace),
               stripL (r3.takeWhile isPySpace ++ m2)] := by
            unfold reSplitDash
            rw [hsplit]
            rfl
          have hstripL : stripL (r3.takeWhile isPySpace ++ m2) = m2 := by
            rw [hm2cons]
            exact stripL_spaces_append _ c0 m2'
              (fun c hc => List.mem_takeWhile_imp hc) hc0
          have hstrip : strip (stripL (r3.takeWhile isPySpace ++ m2)) = m2 := by
            rw [hstripL, hm2cons]
            exact strip_of_ends c0 m2' dd hc0 (hm2cons ▸ hlast)
              (digit_not_space dd hdd)
          have hpres : ¬ (lowerStr m2 = ("present").data) := by
            intro heq
            have hlastlow : (lowerStr m2).getLast? = some (asciiLower dd) := by
              unfold lowerStr
              rw [List.getLast?_map, hlast]
              rfl
            rw [heq] at hlastlow
            rw [digit_lower_self dd hdd] at hlastlow
            have hdt : dd = 't' := by
              have : some ('t' : Char) = some dd := by
                rw [← hlastlow]
                rfl
              simpa using this.symm
            subst hdt
            cases hdd
          unfold rangeContribution
          rw [hreSplit]
          dsimp only []
          rw [hstrip]
          rw [if_neg hpres, if_neg hpres]
      · rw [if_neg hd] at h'
        cases h'

/-- The loop body is clock-independent on a bare `present` match: the split
has a single part, so the range is skipped. -/
lemma presentTok_contribution (prev : Option Char) (cs m rest : Str)
    (h : presentTok prev cs = some (m, rest)) (now now' : Nat × Nat) :
    rangeContribution now m = rangeContribution now' m := by
  obtain ⟨-, hdash⟩ := presentTok_shape prev cs m rest h
  have hsplit : splitOnDash m = [m] := splitOnDash_no_dash m hdash
  unfold rangeContribution reSplitDash
  rw [hsplit]

/-- Every date-pattern token yields a clock-independent contribution. -/
lemma dateToken_contribution (prev : Option Char) (cs m rest : Str)
    (h : dateToken prev cs = some (m, rest)) (now now' : Nat × Nat) :
    rangeContribution now m = rangeContribution now' m := by
  unfold dateToken at h
  revert h
  cases h1 : dateRangeTok cs <;> intro h
  · exact presentTok_contribution prev cs m rest h now now'
  · next pr =>
    have hpr : pr = (m, rest) := by simpa using h
    subst hpr
    exact dateRangeTok_contribution cs m rest h1 now now'

/-- Every substring found by the date scan yields a clock-independent
contribution. -/
lemma dateScanAux_contribution :
    ∀ (fuel : Nat) (prev : Option Char) (cs m : Str),
      m ∈ dateScanAux fuel prev cs →
      ∀ now now', rangeContribution now m = rangeContribution now' m := by
  intro fuel
  induction fuel with
  | zero => intro prev cs m hm; simp [dateScanAux] at hm
  | succ fuel ih =>
    intro prev cs m hm now now'
    cases cs with
    | nil => simp [dateScanAux] at hm
    | cons c cs' =>
      unfold dateScanAux at hm
      revert hm
      cases ht : dateToken prev (c :: cs') <;> intro hm
      · exact ih (some c) cs' m hm now now'
      · next pr =>
        obtain ⟨mm, rr⟩ := pr
        dsimp only [] at hm
        rcases List.mem_cons.mp hm with heq | hmem
        · subst heq
          exact dateToken_contribution prev (c :: cs') m rr ht now now'
        · exact ih mm.getLast? rr m hmem now now'

/-- `extract_experience` does not depend on the clock: the explicit patterns
never consult it, and the `present` substitution branch is unreachable. -/
lemma extractExperience_now_inv (now now' : Nat × Nat) (text : Str) :
    extractExperience now text = extractExperience now' text := by
  unfold extractExperience
  cases hv : explicitValue text
  · dsimp only []
    rw [dateFallback_eq, dateFallback_eq]
    have hcongr : (dateFindAll text).filterMap (rangeContribution now) =
        (dateFindAll text).filterMap (rangeContribution now') := by
      apply List.filterMap_congr
      intro m hm
      exact dateScanAux_contribution text.length none text m hm now now'
    rw [hcongr]
  · rfl

/-- `analyze_resume` does not depend on the clock. -/
lemma analyzeResume_now_inv (cfg : Config) (now now' : Nat × Nat) (text : Str) :
    analyzeResume cfg now text = analyzeResume cfg now' text := by
  unfold analyzeResume
  rw [extractExperience_now_inv now now' text]

/-- C9: scoring is deterministic: two runs of `analyze_resume` on identical
text and requirement parameters give equal analysis results — in particular
equal scores — whatever the clock reads on each run, because the `present`
substitution that consults the clock is unreachable. -/
theorem c9_deterministic_scoring :
    ∀ cfg now1 now2 text, analyzeResume cfg now1 text = analyzeResume cfg now2 text ∧
      (analyzeResume cfg now1 text).map Analysis.score =
        (analyzeResume cfg now2 text).map Analysis.score := by
  intro cfg now1 now2 text
  have h := analyzeResume_now_inv cfg now1 now2 text
  exact ⟨h, by rw [h]⟩

/-- C2 (behaviour at the failing input): on text with ranges
`jan 2018 - dec 2019` and `mar 2020 - present`, the regex alternation matches
the bare word `present` instead of the second range, so extraction returns
only the first duration 699 days / 365.25 = 932/487 ≈ 1.91 for every clock
value, and the findall list shows the lone `present` token. -/
theorem c2_present_range_dropped :
    (∀ now, extractExperience now
        (("worked jan 2018 - dec 2019 then mar 2020 - present").data) =
        some ((932 : ℚ) / 487)) ∧
    dateFindAll (("worked jan 2018 - dec 2019 then mar 2020 - present").data) =
      [("jan 2018 - dec 2019").data, ("present").data] := by
  constructor
  · intro now
    rw [extractExperience_now_inv now (1, 2000)]
    with_unfolding_all rfl
  · with_unfolding_all rfl

end ResumeApp
